import Mathlib

/-!
Verification of the version-history reconciler in `src/update_cursor_links.py`
(repository `cursor-history-links`).

The Python module is shallowly embedded below.  Pure helpers
(`extract_version`, the merge pipeline of `update_readme`) become Lean
functions; the on-disk state (`version-history.json`, its `.backup` sibling and
`README.md`) becomes an explicit record `FS` threaded through `save_version_history`,
`read_version_history` and `update_readme`.  Serialization with Python's `json`
module is modelled at the level of a JSON syntax tree: `json.dumps` is
`encodeHistory` and parsing a dumped document is total at that level.
-/

namespace CursorLinks

/-- One record of `version-history.json` (`VersionHistoryEntry` TypedDict,
lines 34-37): a version string, a `YYYY-MM-DD` date string and an
insertion-ordered mapping from platform id to download URL (Python `dict`,
modelled as an association list). -/
structure VersionHistoryEntry where
  version : String
  date : String
  platforms : List (String × String)
deriving DecidableEq, Repr

/-- The whole document (`VersionHistory` TypedDict, lines 39-40). -/
structure VersionHistory where
  versions : List VersionHistoryEntry
deriving DecidableEq, Repr

/-- Per-platform fetch result (`VersionInfo` TypedDict, lines 30-32). -/
structure VersionInfo where
  url : String
  version : String
deriving DecidableEq, Repr

/-- Decision procedure for Python's lexicographic string comparison that
compares the underlying character lists by code point — exactly the comparison
Python uses on `str`.  Registered with raised priority so that every
comparison below evaluates by kernel reduction. -/
instance (priority := 2000) strDecidableLt (s t : String) : Decidable (s < t) :=
  decidable_of_iff (s.data < t.data) String.lt_iff_toList_lt.symm

/-- Same decision procedure for the `≤` direction. -/
instance (priority := 2000) strDecidableLe (s t : String) : Decidable (s ≤ t) :=
  decidable_of_iff (¬ t < s) not_lt

/-- JSON documents, as far as this program produces them: strings, arrays and
objects (insertion-ordered key/value lists, as in Python dicts). -/
inductive Json where
  | str : String → Json
  | arr : List Json → Json
  | obj : List (String × Json) → Json

/-- Serialization of the `platforms` dict (part of `json.dumps`). -/
def encodePlat (ps : List (String × String)) : List (String × Json) :=
  ps.map (fun p => (p.1, Json.str p.2))

/-- Serialization of one entry (part of `json.dumps`). -/
def encodeEntry (e : VersionHistoryEntry) : Json :=
  Json.obj [("version", Json.str e.version), ("date", Json.str e.date),
            ("platforms", Json.obj (encodePlat e.platforms))]

/-- Serialization of the whole history: the structure `json.dumps` receives at
line 159, as a JSON syntax tree. -/
def encodeHistory (h : VersionHistory) : Json :=
  Json.obj [("versions", Json.arr (h.versions.map encodeEntry))]

/-- Interpretation of a parsed `platforms` object back into the typed model. -/
def decodePlat : List (String × Json) → Option (List (String × String))
  | [] => some []
  | (k, Json.str v) :: rest => (decodePlat rest).map (fun ps => (k, v) :: ps)
  | _ => none

/-- Interpretation of one parsed entry back into the typed model. -/
def decodeEntry : Json → Option VersionHistoryEntry
  | Json.obj [("version", Json.str v), ("date", Json.str d),
              ("platforms", Json.obj pl)] =>
    (decodePlat pl).map (fun ps => ⟨v, d, ps⟩)
  | _ => none

/-- Interpretation of a parsed list of entries. -/
def decodeEntries : List Json → Option (List VersionHistoryEntry)
  | [] => some []
  | j :: rest =>
    match decodeEntry j, decodeEntries rest with
    | some e, some es => some (e :: es)
    | _, _ => none

/-- Interpretation of a parsed history document.  The Python code returns the
parsed JSON value as the history object without further validation; in this
typed embedding a document that is not history-shaped is mapped to the same
outcome as a parse failure (the empty history). -/
def decodeHistory : Json → Option VersionHistory
  | Json.obj [("versions", Json.arr l)] => (decodeEntries l).map VersionHistory.mk
  | _ => none

/-- The on-disk state the module touches: `version-history.json`, its
`.backup` sibling and `README.md` (each `none` when the file is absent). -/
structure FS where
  histFile : Option Json
  backupFile : Option Json
  readme : Option String

/-- Lines 150-156 of `save_version_history`: if `version-history.json` exists it
is renamed over the `.backup` path (`Path.replace`), so after this step the
original path no longer holds a file.  The rename is best-effort in the code; a
raising rename is caught and ignored, and the normal successful rename is what
is modelled here. -/
def save_backupPhase (fs : FS) : FS :=
  match fs.histFile with
  | some j => { fs with histFile := none, backupFile := some j }
  | none => fs

/-- The disk state at the moment the round-trip parse check of lines 162-166
runs: the backup rename of lines 150-156 has already executed, the new content
has not been written yet. -/
def save_stateAtCheck (fs : FS) : FS := save_backupPhase fs

/-- Line 159, `json.dumps(history, indent=2)`, at the JSON-tree level. -/
def json_dumps (h : VersionHistory) : Json := encodeHistory h

/-- Line 163, `json.loads(json_data)` applied to the serialized bytes of a JSON
document: at the JSON-tree level parsing the dump of a document always
succeeds and returns the same document. -/
def json_loads (j : Json) : Option Json := some j

/-- Lines 137-179, `save_version_history`.  The `versions`-is-a-list guard of
line 144 always passes in this typed embedding.  Steps: rename the existing
file to `.backup` (150-156), serialize (159), round-trip parse check aborting
on failure (162-166), then write a temp file and rename it over the target
(169-172).  The post-write existence check of lines 175-176 only logs. -/
def save_version_history (h : VersionHistory) (fs : FS) : FS :=
  let fs1 := save_backupPhase fs
  let j := json_dumps h
  match json_loads j with
  | none => fs1
  | some _ => { fs1 with histFile := some j }

/-- Lines 117-134, `read_version_history`: a missing file and a file that does
not parse as a history document both yield the empty history. -/
def read_version_history (fs : FS) : VersionHistory :=
  match fs.histFile with
  | none => ⟨[]⟩
  | some j =>
    match decodeHistory j with
    | some h => h
    | none => ⟨[]⟩

/-! ### Version extraction (lines 62-79)

`extract_version` applies `re.search(r'CursorUserSetup-[^-]+-([0-9.]+)\.exe', url)`
first and falls back to `re.search(r'[0-9]+\.[0-9]+\.[0-9]+', url)`.  Both
patterns are embedded as specialized matchers with Python's leftmost,
greedy-with-backtracking semantics.  For these patterns backtracking collapses
to: a character class run is always the maximal run from its start position
(backtracking inside `[0-9]+\.` and `[^-]+-` is vacuous because the characters
given back can never match the following literal), except for `([0-9.]+)\.exe`
where the dot is in the class and the greedy group genuinely backtracks to the
largest split followed by the literal `.exe`. -/

/-- Characters of the class `[0-9.]`. -/
def isVerChar (c : Char) : Bool := c.isDigit || c == '.'

/-- The literal `CursorUserSetup-` of the Windows pattern. -/
def cursorSetupLit : List Char := "CursorUserSetup-".data

/-- The literal `\.exe` of the Windows pattern. -/
def exeChars : List Char := ['.', 'e', 'x', 'e']

/-- Greedy match of `([0-9.]+)\.exe` at a fixed position: try the splits of the
maximal `[0-9.]` run from the largest down to one character, and keep the first
split directly followed by `.exe`.  `k` is the number of split candidates left. -/
def groupBacktrack (s : List Char) : Nat → Option (List Char)
  | 0 => none
  | k + 1 =>
    if (s.drop (k + 1)).take 4 = exeChars then some (s.take (k + 1))
    else groupBacktrack s k

/-- Match of `([0-9.]+)\.exe` anchored at the start of `s`, returning the
captured group. -/
def matchGroupExe (s : List Char) : Option (List Char) :=
  groupBacktrack s (s.takeWhile isVerChar).length

/-- Match of `CursorUserSetup-[^-]+-([0-9.]+)\.exe` anchored at the start of
`s`, returning the captured group.  `[^-]+-` deterministically consumes up to
and including the first `-` after the literal. -/
def matchWinAt (s : List Char) : Option (List Char) :=
  if s.take cursorSetupLit.length = cursorSetupLit then
    let after := s.drop cursorSetupLit.length
    let mid := after.takeWhile (fun c => c != '-')
    if mid.isEmpty then none
    else
      match after.dropWhile (fun c => c != '-') with
      | [] => none
      | c :: r2 => if c = '-' then matchGroupExe r2 else none
  else none

/-- `re.search` scan for the Windows pattern: leftmost start position wins. -/
def searchWin : List Char → Option (List Char)
  | [] => none
  | c :: rest =>
    match matchWinAt (c :: rest) with
    | some g => some g
    | none => searchWin rest

/-- Match of `[0-9]+\.[0-9]+\.[0-9]+` anchored at the start of `s`: each digit
run must be the maximal one (a shorter run would leave a digit where the
literal dot is required) and the final run is greedy. -/
def matchTripleAt (s : List Char) : Option (List Char) :=
  let d1 := s.takeWhile Char.isDigit
  if d1.isEmpty then none
  else
    match s.dropWhile Char.isDigit with
    | [] => none
    | c1 :: r2 =>
      if c1 = '.' then
        let d2 := r2.takeWhile Char.isDigit
        if d2.isEmpty then none
        else
          match r2.dropWhile Char.isDigit with
          | [] => none
          | c2 :: r4 =>
            if c2 = '.' then
              let d3 := r4.takeWhile Char.isDigit
              if d3.isEmpty then none
              else some (d1 ++ '.' :: d2 ++ '.' :: d3)
            else none
      else none

/-- `re.search` scan for the generic `major.minor.patch` pattern. -/
def searchTriple : List Char → Option (List Char)
  | [] => none
  | c :: rest =>
    match matchTripleAt (c :: rest) with
    | some m => some m
    | none => searchTriple rest

/-- Lines 77-79: the fallback of `extract_version` to the generic pattern,
returning `Unknown` when it finds nothing. -/
def genericVersion (url : String) : String :=
  match searchTriple url.data with
  | some m => String.mk m
  | none => "Unknown"

/-- Lines 62-79, `extract_version`: Windows installer pattern first (the
captured group is additionally tested for truthiness at line 74, which for a
`[0-9.]+` group only excludes the impossible empty string), then the generic
triple pattern, then `Unknown`. -/
def extract_version (url : String) : String :=
  match searchWin url.data with
  | some g => if g.isEmpty then genericVersion url else String.mk g
  | none => genericVersion url

/-! ### The merge pipeline of `update_readme` (lines 196-298) -/

/-- Lines 43-59, the `PLATFORMS` table, in Python dict insertion order.  Only
the per-OS platform-id lists feed the update logic; the readable names repeat
them and the section titles are unused by the modelled paths. -/
def PLATFORMS : List (String × List String) :=
  [("windows", ["win32-x64", "win32-arm64"]),
   ("mac", ["darwin-universal", "darwin-x64", "darwin-arm64"]),
   ("linux", ["linux-x64", "linux-arm64"])]

/-- Lines 205-214, the inner fetch loop over one OS family's platforms:
a fetched, truthy URL contributes a result, and a non-`Unknown` extracted
version that compares greater (Python string comparison) advances
`latest_version`. -/
def collectPlats (fetched : String → Option String) :
    List String → String → List (String × VersionInfo) × String
  | [], latest => ([], latest)
  | p :: rest, latest =>
    match fetched p with
    | some url =>
      if url = "" then collectPlats fetched rest latest
      else
        let v := extract_version url
        let latest1 := if v ≠ "Unknown" ∧ latest < v then v else latest
        let step := collectPlats fetched rest latest1
        ((p, ⟨url, v⟩) :: step.1, step.2)
    | none => collectPlats fetched rest latest

/-- Lines 202-214, the outer fetch loop over the OS families. -/
def collectAll (fetched : String → Option String) :
    List (String × List String) → String →
      List (String × List (String × VersionInfo)) × String
  | [], latest => ([], latest)
  | (osKey, plats) :: rest, latest =>
    let inner := collectPlats fetched plats latest
    let outer := collectAll fetched rest inner.2
    ((osKey, inner.1) :: outer.1, outer.2)

/-- The whole fetch round: per-OS results and the final `latest_version`
(baseline `0.0.0`, line 198). -/
def collect (fetched : String → Option String) :
    List (String × List (String × VersionInfo)) × String :=
  collectAll fetched PLATFORMS "0.0.0"

/-- Python dict assignment `platforms[platform] = url` (line 250): replace the
value in place when the key is present, append otherwise. -/
def dinsert (l : List (String × String)) (k v : String) : List (String × String) :=
  if l.any (fun kv => kv.1 == k) then
    l.map (fun kv => if kv.1 == k then (k, v) else kv)
  else l ++ [(k, v)]

/-- Lines 244-250: the merged `platforms` dict for the new entry, iterating the
OS families in the order mac, windows, linux over this round's results. -/
def buildPlatforms
    (results : List (String × List (String × VersionInfo))) : List (String × String) :=
  ["mac", "windows", "linux"].foldl
    (fun acc osKey =>
      match results.lookup osKey with
      | some prs => prs.foldl (fun a pv => dinsert a pv.1 pv.2.url) acc
      | none => acc) []

/-- Lines 226-227: `next((i for i, entry in enumerate(history["versions"]) if
entry["version"] == latest_version), -1)`, with `-1` as `none`. -/
def findVerIdx (v : String) : List VersionHistoryEntry → Option Nat
  | [] => none
  | e :: rest =>
    if e.version = v then some 0 else (findVerIdx v rest).map (fun i => i + 1)

/-- Descending comparison on the version strings, the sort key of line 268
(`key=lambda x: x["version"], reverse=True`). -/
def verGe (a b : VersionHistoryEntry) : Prop := b.version ≤ a.version

instance : DecidableRel verGe :=
  fun a b => inferInstanceAs (Decidable (b.version ≤ a.version))

instance : IsTotal VersionHistoryEntry verGe :=
  ⟨fun a b => (le_total b.version a.version).imp id id⟩

instance : IsTrans VersionHistoryEntry verGe :=
  ⟨fun _ _ _ hab hbc => le_trans hbc hab⟩

/-- Line 268, `history["versions"].sort(key=lambda x: x["version"],
reverse=True)`.  Python's sort is stable and a stable descending sort by one
key is unique, so it is modelled by stable insertion sort (among equal
versions the originally earlier entry stays first). -/
def sortD (l : List VersionHistoryEntry) : List VersionHistoryEntry :=
  l.insertionSort verGe

/-- Lines 270-285, the dedup loop with its `unique_versions` seen set: keep an
entry when its version was not seen yet, in list order. -/
def dedupLoop (seen : List String) : List VersionHistoryEntry → List VersionHistoryEntry
  | [] => []
  | x :: xs =>
    if x.version ∈ seen then dedupLoop seen xs
    else x :: dedupLoop (x.version :: seen) xs

/-- Seen-set-free reformulation of first-occurrence dedup, used in proofs. -/
def dedupF : List VersionHistoryEntry → List VersionHistoryEntry
  | [] => []
  | x :: xs => x :: dedupF (xs.filter (fun y => y.version != x.version))
termination_by l => l.length
decreasing_by
  simp only [List.length_cons]
  exact Nat.lt_succ_of_le (List.length_filter_le _ _)

/-- The merge normalization exactly as the code orders it (lines 268-285):
sort descending first, then deduplicate with the seen-set loop. -/
def codeSortThenDedup (l : List VersionHistoryEntry) : List VersionHistoryEntry :=
  dedupLoop [] (sortD l)

/-- Modelled from the spec (§4.3 steps 4-5): deduplicate by version first,
first occurrence in insertion order winning, and only afterwards sort
descending by version string.  Stated for comparison with the code's order of
operations. -/
def specDedupThenSort (l : List VersionHistoryEntry) : List VersionHistoryEntry :=
  sortD (dedupLoop [] l)

/-! ### Rendering (lines 299-366) -/

/-- Lines 323-341: one OS family's cell of a table row — the entry's URLs for
that family's platform ids, in table order, as markdown links joined by `br`
tags. -/
def entryLinks (pd : List (String × String)) (plist : List String) : String :=
  String.intercalate "<br>" (plist.filterMap
    (fun p => (pd.lookup p).map (fun u => "[" ++ p ++ "](" ++ u ++ ")")))

/-- Lines 318-345: one table row, the Linux cell defaulting to `Not Ready`. -/
def generateTableRow (e : VersionHistoryEntry) : String :=
  let mac := entryLinks e.platforms ["darwin-universal", "darwin-x64", "darwin-arm64"]
  let win := entryLinks e.platforms ["win32-x64", "win32-arm64"]
  let lin0 := entryLinks e.platforms ["linux-x64", "linux-arm64"]
  let lin := if lin0 = "" then "Not Ready" else lin0
  "| " ++ e.version ++ " | " ++ e.date ++ " | " ++ mac ++ " | " ++ win ++ " | " ++ lin ++ " |"

/-- Lines 347-349: header plus one row per history entry. -/
def generateTable (h : VersionHistory) : String :=
  "| Version | Date | Mac Installer | Windows Installer | Linux Installer |\n| --- | --- | --- | --- | --- |"
    ++ "\n" ++ String.intercalate "\n" (h.versions.map generateTableRow)

/-- Lines 351-366: the README content after the table splice (replace the
first header-matching table, or append when absent) and the timestamp-line
rewrite.  The regex splice itself is abstracted to a content constructor —
the new content is a function of the old content, the regenerated table and
the timestamp — since no claim below depends on the README's exact text, only
on whether it is written at all. -/
def renderedReadme (old table ts : String) : String :=
  old ++ "\n\n" ++ table ++ "\n" ++ ts

/-! ### `update_readme` (lines 182-372) and `main` (line 382) -/

/-- Lines 252-257: the new entry for this round — the latest version, today's
date and every successfully fetched URL of the round. -/
def newEntryOf (fetched : String → Option String) (current_date : String) :
    VersionHistoryEntry :=
  ⟨(collect fetched).2, current_date, buildPlatforms (collect fetched).1⟩

/-- Lines 259-290: replace the existing entry for the latest version in place,
or append a new one (259-265); sort descending by version string (268);
deduplicate with the seen-set loop (270-285); truncate to 100 entries
(287-290). -/
def mergedVersions (fetched : String → Option String) (current_date : String)
    (fs : FS) : List VersionHistoryEntry :=
  let history := read_version_history fs
  let versions1 :=
    match findVerIdx (collect fetched).2 history.versions with
    | some i => history.versions.set i (newEntryOf fetched current_date)
    | none => history.versions ++ [newEntryOf fetched current_date]
  let versions3 := codeSortThenDedup versions1
  if versions3.length > 100 then versions3.take 100 else versions3

/-- Lines 182-372, `update_readme`, with the network round supplied as the
finished per-platform fetch outcome `fetched`, the UTC+8 clock supplied as the
already formatted `current_date` and `now_str`, and the file system explicit.
Returns the success boolean with the final file system.  File writes succeed
in this model; the read-side failure branches (missing files) are
represented. -/
def update_readme (fetched : String → Option String) (force_update : Bool)
    (current_date now_str : String) (fs : FS) : Bool × FS :=
  if (collect fetched).2 = "0.0.0" then (false, fs)
  else if (findVerIdx (collect fetched).2 (read_version_history fs).versions).isSome
      ∧ force_update = false then (false, fs)
  else
    match fs.readme with
    | none => (false, fs)
    | some readme_content =>
      let versions4 := mergedVersions fetched current_date fs
      let fs2 := save_version_history ⟨versions4⟩ fs
      let newReadme := renderedReadme readme_content (generateTable ⟨versions4⟩) now_str
      (true, { fs2 with readme := some newReadme })

/-- Line 382 of `main`: the deployed entry point always calls
`update_readme(force_update=True)`.  The follow-up `verify_file_integrity`
pass only ever appends a history entry for a README version missing from
history and is not needed by any claim below. -/
def main_update (fetched : String → Option String)
    (current_date now_str : String) (fs : FS) : Bool × FS :=
  update_readme fetched true current_date now_str fs

/-! ### Spec-side predicates (claim wording) -/

/-- Nonempty all-digit run (spec wording for a numeric component). -/
def digitsOnly (l : List Char) : Prop := l ≠ [] ∧ ∀ c ∈ l, c.isDigit

/-- Spec wording for a generic-pattern match: a `major.minor.patch` shaped
string, three nonempty numeric components separated by dots. -/
def tripleShape (m : List Char) : Prop :=
  ∃ d1 d2 d3, digitsOnly d1 ∧ digitsOnly d2 ∧ digitsOnly d3 ∧
    m = d1 ++ '.' :: d2 ++ '.' :: d3

/-- Spec wording for a Windows-pattern match of the URL `s` with captured
group `g`: somewhere in `s` the literal `CursorUserSetup-` is followed by a
nonempty dash-free segment, a dash, the captured `[0-9.]+` group and the
literal `.exe`. -/
def winShape (s g : List Char) : Prop :=
  ∃ pre mid rest, mid ≠ [] ∧ '-' ∉ mid ∧ g ≠ [] ∧ (∀ c ∈ g, isVerChar c = true) ∧
    s = pre ++ cursorSetupLit ++ (mid ++ '-' :: (g ++ '.' :: 'e' :: 'x' :: 'e' :: rest))

/-- Splitting a character list at every dot. -/
def dotSplit : List Char → List (List Char)
  | [] => [[]]
  | c :: rest =>
    if c = '.' then [] :: dotSplit rest
    else
      match dotSplit rest with
      | [] => [[c]]
      | p :: ps => (c :: p) :: ps

/-- Claim C9's wording of "dotted numeric triple": exactly three dot-separated
nonempty all-digit components. -/
def isDottedTriple (s : String) : Bool :=
  match dotSplit s.data with
  | [a, b, c] =>
    !a.isEmpty && !b.isEmpty && !c.isEmpty &&
      a.all Char.isDigit && b.all Char.isDigit && c.all Char.isDigit
  | _ => false

/-! ### Concrete fixtures for witnesses and counterexamples -/

/-- A Windows installer URL whose embedded version is a full triple. -/
def urlTriple : String := "https://x.dl/CursorUserSetup-x64-1.2.3.exe"

/-- A Windows installer URL whose embedded `[0-9.]+` group is `1.2`, not a
triple. -/
def urlTwo : String := "https://x.dl/CursorUserSetup-x64-1.2.exe"

/-- Fetch round: only win32-x64 resolves, to `urlTriple`. -/
def fetchTriple : String → Option String :=
  fun p => if p = "win32-x64" then some urlTriple else none

/-- Fetch round: only win32-x64 resolves, to `urlTwo`. -/
def fetchTwo : String → Option String :=
  fun p => if p = "win32-x64" then some urlTwo else none

/-- Fetch round with no results at all. -/
def fetchNone : String → Option String := fun _ => none

/-- A pre-existing history entry for version 1.2.3 with an old date. -/
def entryOld : VersionHistoryEntry :=
  ⟨"1.2.3", "2020-01-01", [("win32-x64", "https://old.x.dl/setup.exe")]⟩

/-- Fresh state: no history file, README present. -/
def fsFresh : FS := ⟨none, none, some "README"⟩

/-- State with no history file and no README. -/
def fsNoReadme : FS := ⟨none, none, none⟩

/-- State whose history already records 1.2.3, README present. -/
def fsOld : FS := ⟨some (encodeHistory ⟨[entryOld]⟩), none, some "README"⟩

/-- State whose history already records 1.2.3 but whose README is missing. -/
def fsOldNoReadme : FS := ⟨some (encodeHistory ⟨[entryOld]⟩), none, none⟩

/-- A history of 101 entries, exceeding the documented cap. -/
def bigHistory : VersionHistory := ⟨List.replicate 101 entryOld⟩

/-- State with an arbitrary existing history document. -/
def fsJ : FS := ⟨some (Json.str "old-doc"), none, some "README"⟩

/-- Two entries sharing one version string, differing elsewhere. -/
def entryDupA : VersionHistoryEntry := ⟨"1.0.0", "2024-01-01", []⟩

/-- Second entry with the duplicated version string. -/
def entryDupB : VersionHistoryEntry := ⟨"1.0.0", "2024-01-02", [("linux-x64", "u")]⟩

/-! ## Theorems -/

/-! ### JSON round trip -/

theorem decodePlat_encodePlat (ps : List (String × String)) :
    decodePlat (encodePlat ps) = some ps := by
  induction ps with
  | nil => rfl
  | cons p rest ih =>
    obtain ⟨k, v⟩ := p
    simp only [encodePlat, List.map_cons, decodePlat] at ih ⊢
    simpa [encodePlat] using ih

theorem decodeEntry_encodeEntry (e : VersionHistoryEntry) :
    decodeEntry (encodeEntry e) = some e := by
  obtain ⟨v, d, ps⟩ := e
  simp [encodeEntry, decodeEntry, decodePlat_encodePlat]

theorem decodeEntries_encode (l : List VersionHistoryEntry) :
    decodeEntries (l.map encodeEntry) = some l := by
  induction l with
  | nil => rfl
  | cons e rest ih => simp [decodeEntries, decodeEntry_encodeEntry, ih]

theorem decodeHistory_encodeHistory (h : VersionHistory) :
    decodeHistory (encodeHistory h) = some h := by
  obtain ⟨l⟩ := h
  simp [encodeHistory, decodeHistory, decodeEntries_encode]

/-- Reading back a just-saved history yields exactly the versions that were
saved. -/
theorem read_save_versions (h : VersionHistory) (fs : FS) :
    (read_version_history (save_version_history h fs)).versions = h.versions := by
  simp [save_version_history, json_loads, json_dumps, read_version_history,
        decodeHistory_encodeHistory]

/-! ### Stable sort and first-occurrence dedup -/

theorem sortD_nil : sortD [] = [] := rfl

theorem sortD_cons (x : VersionHistoryEntry) (xs : List VersionHistoryEntry) :
    sortD (x :: xs) = List.orderedInsert verGe x (sortD xs) := rfl

theorem sortD_perm (l : List VersionHistoryEntry) : List.Perm (sortD l) l :=
  List.perm_insertionSort verGe l

theorem sortD_sorted (l : List VersionHistoryEntry) : (sortD l).Sorted verGe :=
  List.sorted_insertionSort verGe l

theorem mem_sortD {a : VersionHistoryEntry} {l : List VersionHistoryEntry} :
    a ∈ sortD l ↔ a ∈ l :=
  (sortD_perm l).mem_iff

/-- Inserting an element at least as big as everything in the list puts it in
front. -/
theorem ordIns_of_le {x : VersionHistoryEntry} :
    ∀ {l : List VersionHistoryEntry}, (∀ y ∈ l, y.version ≤ x.version) →
      List.orderedInsert verGe x l = x :: l := by
  intro l hall
  cases l with
  | nil => rfl
  | cons h t =>
    have : verGe x h := hall h (List.mem_cons_self h t)
    simp [List.orderedInsert, this]

/-- Filtering commutes with ordered insertion into a sorted list when the
inserted element survives the filter. -/
theorem filter_ordIns_pos (p : VersionHistoryEntry → Bool) (x : VersionHistoryEntry)
    (hp : p x = true) :
    ∀ {l : List VersionHistoryEntry}, l.Sorted verGe →
      (List.orderedInsert verGe x l).filter p =
        List.orderedInsert verGe x (l.filter p) := by
  intro l
  induction l with
  | nil => intro _; simp [List.orderedInsert, List.filter_cons, hp]
  | cons h t ih =>
    intro hs
    rw [List.sorted_cons] at hs
    obtain ⟨hall, ht⟩ := hs
    by_cases hc : verGe x h
    · have hle : ∀ y ∈ (h :: t).filter p, y.version ≤ x.version := by
        intro y hy
        have hy' : y ∈ h :: t := List.mem_of_mem_filter hy
        rcases List.mem_cons.mp hy' with rfl | hyt
        · exact hc
        · exact le_trans (hall y hyt) hc
      rw [List.orderedInsert, if_pos hc, List.filter_cons, if_pos hp, ordIns_of_le hle]
    · by_cases hph : p h = true
      · rw [List.orderedInsert, if_neg hc, List.filter_cons, if_pos hph, ih ht,
            List.filter_cons, if_pos hph, List.orderedInsert, if_neg hc]
      · rw [List.orderedInsert, if_neg hc, List.filter_cons, if_neg hph, ih ht,
            List.filter_cons, if_neg hph]

/-- Filtering commutes with ordered insertion when the inserted element is
dropped by the filter. -/
theorem filter_ordIns_neg (p : VersionHistoryEntry → Bool) (x : VersionHistoryEntry)
    (hp : ¬ p x = true) :
    ∀ {l : List VersionHistoryEntry},
      (List.orderedInsert verGe x l).filter p = l.filter p := by
  intro l
  induction l with
  | nil => simp [List.orderedInsert, List.filter_cons, hp]
  | cons h t ih =>
    by_cases hc : verGe x h
    · rw [List.orderedInsert, if_pos hc, List.filter_cons, if_neg hp]
    · by_cases hph : p h = true
      · rw [List.orderedInsert, if_neg hc, List.filter_cons, if_pos hph, ih,
            List.filter_cons, if_pos hph]
      · rw [List.orderedInsert, if_neg hc, List.filter_cons, if_neg hph, ih,
            List.filter_cons, if_neg hph]

/-- Sorting commutes with filtering. -/
theorem sortD_filter (p : VersionHistoryEntry → Bool) :
    ∀ l : List VersionHistoryEntry, sortD (l.filter p) = (sortD l).filter p := by
  intro l
  induction l with
  | nil => rfl
  | cons x xs ih =>
    by_cases hp : p x = true
    · rw [List.filter_cons, if_pos hp, sortD_cons, sortD_cons,
          filter_ordIns_pos p x hp (sortD_sorted xs), ih]
    · rw [List.filter_cons, if_neg hp, sortD_cons, filter_ordIns_neg p x hp, ih]

theorem dedupF_nil : dedupF [] = [] := by
  simp [dedupF]

theorem dedupF_cons (x : VersionHistoryEntry) (xs : List VersionHistoryEntry) :
    dedupF (x :: xs) = x :: dedupF (xs.filter (fun y => y.version != x.version)) := by
  simp [dedupF]

theorem mem_of_mem_dedupF :
    ∀ {l : List VersionHistoryEntry} {a}, a ∈ dedupF l → a ∈ l := by
  intro l
  induction l using dedupF.induct with
  | case1 =>
    intro a ha
    rw [dedupF_nil] at ha
    exact absurd ha (List.not_mem_nil a)
  | case2 x xs ih =>
    intro a ha
    rw [dedupF_cons] at ha
    rcases List.mem_cons.mp ha with rfl | ha
    · exact List.mem_cons_self _ _
    · exact List.mem_cons_of_mem _ (List.mem_of_mem_filter (ih ha))

theorem dedupF_length_le : ∀ l : List VersionHistoryEntry, (dedupF l).length ≤ l.length := by
  intro l
  induction l using dedupF.induct with
  | case1 => simp [dedupF_nil]
  | case2 x xs ih =>
    rw [dedupF_cons]
    simp only [List.length_cons]
    exact Nat.succ_le_succ (le_trans ih (List.length_filter_le _ _))

/-- Searching a filtered list with a predicate that forces the filter finds
the same first element as searching the unfiltered list. -/
theorem find?_filter_of_imp (p q : VersionHistoryEntry → Bool)
    (himp : ∀ a, p a = true → q a = true) :
    ∀ l : List VersionHistoryEntry, (l.filter q).find? p = l.find? p := by
  intro l
  induction l with
  | nil => rfl
  | cons h t ih =>
    by_cases hq : q h = true
    · rw [List.filter_cons, if_pos hq]
      by_cases hp : p h = true
      · rw [List.find?_cons_of_pos _ hp, List.find?_cons_of_pos _ hp]
      · rw [List.find?_cons_of_neg _ hp, List.find?_cons_of_neg _ hp, ih]
    · have hp : ¬ p h = true := fun hph => hq (himp h hph)
      rw [List.filter_cons, if_neg hq, ih, List.find?_cons_of_neg _ hp]

/-- Every survivor of the dedup is the first entry carrying its version. -/
theorem dedupF_first :
    ∀ {l : List VersionHistoryEntry} {e}, e ∈ dedupF l →
      l.find? (fun y => y.version == e.version) = some e := by
  intro l
  induction l using dedupF.induct with
  | case1 =>
    intro e he
    rw [dedupF_nil] at he
    exact absurd he (List.not_mem_nil e)
  | case2 x xs ih =>
    intro e he
    rw [dedupF_cons] at he
    rcases List.mem_cons.mp he with rfl | he
    · exact List.find?_cons_of_pos _ (by simp)
    · have hef : e ∈ xs.filter (fun y => y.version != x.version) :=
        mem_of_mem_dedupF he
      have hne : e.version ≠ x.version := by
        have := List.of_mem_filter hef
        simpa using this
      have hfind := ih he
      have himp : ∀ a, (fun y : VersionHistoryEntry => y.version == e.version) a = true →
          (fun y : VersionHistoryEntry => y.version != x.version) a = true := by
        intro a hpa
        have ha : a.version = e.version := by simpa using hpa
        simp [ha, hne]
      rw [find?_filter_of_imp _ _ himp xs] at hfind
      rw [List.find?_cons_of_neg _ (by simp [hne.symm]), hfind]

/-- Dedup keeps at least one entry per version present in the input. -/
theorem dedupF_keys :
    ∀ {l : List VersionHistoryEntry} {v}, (∃ e ∈ l, e.version = v) →
      ∃ e ∈ dedupF l, e.version = v := by
  intro l
  induction l using dedupF.induct with
  | case1 =>
    intro v hv
    obtain ⟨e, he, _⟩ := hv
    exact absurd he (List.not_mem_nil e)
  | case2 x xs ih =>
    intro v hv
    obtain ⟨e, he, hev⟩ := hv
    rw [dedupF_cons]
    by_cases hxv : x.version = v
    · exact ⟨x, List.mem_cons_self _ _, hxv⟩
    · rcases List.mem_cons.mp he with rfl | hexs
      · exact absurd hev hxv
      · have hevx : e.version ≠ x.version := by
          intro h0
          exact hxv (h0 ▸ hev)
        have hef : e ∈ xs.filter (fun y => y.version != x.version) := by
          refine List.mem_filter.mpr ⟨hexs, ?_⟩
          simp [hevx]
        obtain ⟨e', he', hv'⟩ := ih ⟨e, hef, hev⟩
        exact ⟨e', List.mem_cons_of_mem _ he', hv'⟩

/-- Dedup commutes with ordered insertion into a sorted list: the inserted
element stays, and later entries with its version are dropped. -/
theorem dedupF_ordIns :
    ∀ l : List VersionHistoryEntry, l.Sorted verGe → ∀ x,
      dedupF (List.orderedInsert verGe x l) =
        List.orderedInsert verGe x
          (dedupF (l.filter (fun y => y.version != x.version))) := by
  intro l
  induction l using dedupF.induct with
  | case1 =>
    intro _ x
    simp [List.orderedInsert, dedupF_cons, dedupF_nil, List.filter_nil]
  | case2 h t ih =>
    intro hs x
    rw [List.sorted_cons] at hs
    obtain ⟨hall, ht⟩ := hs
    by_cases hc : verGe x h
    · rw [List.orderedInsert, if_pos hc, dedupF_cons]
      have hle : ∀ y ∈ dedupF ((h :: t).filter (fun y => y.version != x.version)),
          y.version ≤ x.version := by
        intro y hy
        have hy' : y ∈ h :: t := List.mem_of_mem_filter (mem_of_mem_dedupF hy)
        rcases List.mem_cons.mp hy' with rfl | hyt
        · exact hc
        · exact le_trans (hall y hyt) hc
      rw [ordIns_of_le hle]
    · have hvne : x.version ≠ h.version := by
        intro heq
        exact hc (le_of_eq heq.symm)
      have hpx : (fun y => y.version != h.version) x = true := by simp [hvne]
      have hph : (fun y => y.version != x.version) h = true := by
        simp [hvne.symm]
      rw [List.orderedInsert, if_neg hc, dedupF_cons,
          filter_ordIns_pos _ x hpx ht, ih (ht.filter _) x,
          List.filter_cons, if_pos hph, dedupF_cons,
          List.orderedInsert, if_neg hc]
      have hcomm :
          (t.filter (fun y => y.version != h.version)).filter
              (fun y => y.version != x.version) =
            (t.filter (fun y => y.version != x.version)).filter
              (fun y => y.version != h.version) := by
        rw [List.filter_filter, List.filter_filter]
        exact List.filter_congr (fun a _ => Bool.and_comm _ _)
      rw [hcomm]

/-- The code's sort-then-dedup equals dedup-then-sort: Python's sort is
stable, so among entries sharing a version the originally first one is still
first after sorting, and both pipelines keep exactly that entry. -/
theorem dedupF_sortD :
    ∀ l : List VersionHistoryEntry, dedupF (sortD l) = sortD (dedupF l) := by
  intro l
  induction l using dedupF.induct with
  | case1 => rw [sortD_nil, dedupF_nil, sortD_nil]
  | case2 x xs ih =>
    rw [sortD_cons, dedupF_ordIns (sortD xs) (sortD_sorted xs) x,
        ← sortD_filter, ih, dedupF_cons, sortD_cons]

/-- The seen-set loop of the code equals the filter-based dedup. -/
theorem dedupLoop_eq_dedupF :
    ∀ (l : List VersionHistoryEntry) (seen : List String),
      dedupLoop seen l =
        dedupF (l.filter (fun e => decide (e.version ∉ seen))) := by
  intro l
  induction l with
  | nil => intro seen; simp [dedupLoop, dedupF_nil]
  | cons x xs ih =>
    intro seen
    by_cases hx : x.version ∈ seen
    · rw [dedupLoop, if_pos hx, ih seen, List.filter_cons,
          if_neg (by simp [hx])]
    · rw [dedupLoop, if_neg hx, ih (x.version :: seen), List.filter_cons,
          if_pos (by simp [hx]), dedupF_cons, List.filter_filter]
      have hcong : ∀ a ∈ xs,
          (a.version != x.version && decide (a.version ∉ seen)) =
            decide (a.version ∉ x.version :: seen) := by
        intro a _
        by_cases hav : a.version = x.version
        · simp [hav, List.mem_cons]
        · by_cases has : a.version ∈ seen
          · simp [hav, has, List.mem_cons]
          · simp [hav, has, List.mem_cons]
      rw [List.filter_congr hcong]

/-- With an empty seen set the loop is plain first-occurrence dedup. -/
theorem dedupLoop_nil :
    ∀ l : List VersionHistoryEntry, dedupLoop [] l = dedupF l := by
  intro l
  rw [dedupLoop_eq_dedupF l []]
  congr 1
  exact List.filter_eq_self.mpr (fun a _ => by simp)

/-! ### Locating the existing entry -/

theorem findVerIdx_isSome_iff (v : String) :
    ∀ l : List VersionHistoryEntry,
      (findVerIdx v l).isSome = true ↔ ∃ e ∈ l, e.version = v := by
  intro l
  induction l with
  | nil => simp [findVerIdx]
  | cons e rest ih =>
    by_cases he : e.version = v
    · simp [findVerIdx, he]
    · rw [findVerIdx, if_neg he]
      cases hfi : findVerIdx v rest with
      | none =>
        have hno := ih
        rw [hfi] at hno
        simp only [Option.isSome_none, Bool.false_eq_true, false_iff] at hno
        simp [he, hno]
      | some i =>
        have hyes := ih
        rw [hfi] at hyes
        simp only [Option.isSome_some, true_iff] at hyes
        simp [he, hyes]

/-- After replacing the first entry carrying version `v` (its index computed
by `findVerIdx`) with a fresh entry for `v`, searching for `v` finds exactly
the fresh entry. -/
theorem find?_set_findVerIdx (v d : String) (ps : List (String × String)) :
    ∀ (l : List VersionHistoryEntry) (i : Nat), findVerIdx v l = some i →
      (l.set i ⟨v, d, ps⟩).find? (fun y => y.version == v) =
        some (⟨v, d, ps⟩ : VersionHistoryEntry) := by
  intro l
  induction l with
  | nil => intro i h; simp [findVerIdx] at h
  | cons e rest ih =>
    intro i h
    by_cases he : e.version = v
    · rw [findVerIdx, if_pos he] at h
      injection h with h0
      subst h0
      rw [List.set_cons_zero]
      exact List.find?_cons_of_pos _ (by simp)
    · rw [findVerIdx, if_neg he] at h
      obtain ⟨i1, hi1, hmap⟩ := Option.map_eq_some'.mp h
      subst hmap
      rw [List.set_cons_succ, List.find?_cons_of_neg _ (by simp [he])]
      exact ih i1 hi1

/-! ### The merge of `update_readme` -/

theorem mergedVersions_length_le (fetched : String → Option String)
    (d : String) (fs : FS) : (mergedVersions fetched d fs).length ≤ 100 := by
  unfold mergedVersions
  by_cases hgt :
      (codeSortThenDedup
        (match findVerIdx (collect fetched).2 (read_version_history fs).versions with
         | some i =>
           (read_version_history fs).versions.set i (newEntryOf fetched d)
         | none =>
           (read_version_history fs).versions ++ [newEntryOf fetched d])).length > 100
  · rw [if_pos hgt]
    simp [List.length_take]
  · rw [if_neg hgt]
    exact Nat.le_of_not_lt hgt

/-- When the latest version already has an entry and the stored history is
within the cap, the merge keeps the fresh replacement entry. -/
theorem newEntry_mem_mergedVersions (fetched : String → Option String)
    (d : String) (fs : FS)
    (hex : ∃ e ∈ (read_version_history fs).versions,
        e.version = (collect fetched).2)
    (hlen : (read_version_history fs).versions.length ≤ 100) :
    newEntryOf fetched d ∈ mergedVersions fetched d fs := by
  obtain ⟨i, hi⟩ := Option.isSome_iff_exists.mp
    ((findVerIdx_isSome_iff (collect fetched).2
      (read_version_history fs).versions).mpr hex)
  simp only [mergedVersions]
  simp only [hi]
  have hfind :
      ((read_version_history fs).versions.set i (newEntryOf fetched d)).find?
          (fun y => y.version == (collect fetched).2) =
        some (newEntryOf fetched d) :=
    find?_set_findVerIdx (collect fetched).2 d (buildPlatforms (collect fetched).1)
      (read_version_history fs).versions i hi
  set l1 := (read_version_history fs).versions.set i (newEntryOf fetched d) with hl1
  have hmem1 : newEntryOf fetched d ∈ l1 := List.mem_of_find?_eq_some hfind
  have hkey : ∃ e ∈ dedupF l1, e.version = (collect fetched).2 :=
    dedupF_keys ⟨newEntryOf fetched d, hmem1, rfl⟩
  obtain ⟨e1, he1, hv1⟩ := hkey
  have hfirst := dedupF_first he1
  rw [hv1, hfind] at hfirst
  injection hfirst with he1eq
  subst he1eq
  have hmem3 : newEntryOf fetched d ∈ codeSortThenDedup l1 := by
    unfold codeSortThenDedup
    rw [dedupLoop_nil, dedupF_sortD]
    exact mem_sortD.mpr he1
  have hlen3 : (codeSortThenDedup l1).length ≤ 100 := by
    unfold codeSortThenDedup
    rw [dedupLoop_nil, dedupF_sortD]
    calc (sortD (dedupF l1)).length
        = (dedupF l1).length := (sortD_perm (dedupF l1)).length_eq
      _ ≤ l1.length := dedupF_length_le l1
      _ = (read_version_history fs).versions.length := by
          rw [hl1, List.length_set]
      _ ≤ 100 := hlen
  rw [if_neg (by omega)]
  exact hmem3

/-! ### The branch structure of `update_readme` -/

/-- Reading the history is insensitive to the README field. -/
theorem read_version_history_set_readme (fs : FS) (r : Option String) :
    read_version_history { fs with readme := r } = read_version_history fs := rfl

/-- The success branch of `update_readme`, explicitly. -/
theorem update_readme_success (fetched : String → Option String) (force : Bool)
    (d n : String) (fs : FS) (rc : String)
    (h0 : ¬ (collect fetched).2 = "0.0.0")
    (h1 : ¬ ((findVerIdx (collect fetched).2
        (read_version_history fs).versions).isSome = true ∧ force = false))
    (hrm : fs.readme = some rc) :
    update_readme fetched force d n fs =
      (true,
        { save_version_history ⟨mergedVersions fetched d fs⟩ fs with
            readme := some (renderedReadme rc
              (generateTable ⟨mergedVersions fetched d fs⟩) n) }) := by
  rw [update_readme, if_neg h0, if_neg h1, hrm]

/-! ### Shape of the pattern matchers -/

/-- A prefix no longer than the `takeWhile` run is a prefix of the run. -/
theorem take_of_le_takeWhile (p : Char → Bool) {s : List Char} {n : Nat}
    (hn : n ≤ (s.takeWhile p).length) : s.take n = (s.takeWhile p).take n := by
  conv_lhs => rw [← List.takeWhile_append_dropWhile p s]
  rw [List.take_append_eq_append_take, Nat.sub_eq_zero_of_le hn,
      List.take_zero, List.append_nil]

theorem groupBacktrack_some {s : List Char} :
    ∀ {k : Nat} {g}, groupBacktrack s k = some g →
      ∃ j, j + 1 ≤ k ∧ g = s.take (j + 1) ∧ (s.drop (j + 1)).take 4 = exeChars := by
  intro k
  induction k with
  | zero => intro g h; simp [groupBacktrack] at h
  | succ k ih =>
    intro g h
    rw [groupBacktrack] at h
    by_cases hc : (s.drop (k + 1)).take 4 = exeChars
    · rw [if_pos hc] at h
      injection h with hg
      exact ⟨k, le_refl _, hg.symm, hc⟩
    · rw [if_neg hc] at h
      obtain ⟨j, hj, hg, he⟩ := ih h
      exact ⟨j, Nat.le_succ_of_le hj, hg, he⟩

theorem matchGroupExe_some {s g : List Char} (h : matchGroupExe s = some g) :
    g ≠ [] ∧ (∀ c ∈ g, isVerChar c = true) ∧
      ∃ rest, s = g ++ '.' :: 'e' :: 'x' :: 'e' :: rest := by
  rw [matchGroupExe] at h
  obtain ⟨j, hj, hg, he⟩ := groupBacktrack_some h
  have hjs : j + 1 ≤ s.length :=
    le_trans hj (by
      conv_rhs => rw [← List.takeWhile_append_dropWhile isVerChar s]
      rw [List.length_append]
      exact Nat.le_add_right _ _)
  have hglen : g.length = j + 1 := by
    rw [hg, List.length_take]
    omega
  refine ⟨?_, ?_, ?_⟩
  · intro hnil
    rw [hnil] at hglen
    simp at hglen
  · intro c hc
    rw [hg, take_of_le_takeWhile isVerChar hj] at hc
    exact List.mem_takeWhile_imp (List.mem_of_mem_take hc)
  · refine ⟨(s.drop (j + 1)).drop 4, ?_⟩
    conv_lhs => rw [← List.take_append_drop (j + 1) s]
    rw [← hg]
    congr 1
    conv_lhs => rw [← List.take_append_drop 4 (s.drop (j + 1))]
    rw [he]
    rfl

theorem matchWinAt_some {s g : List Char} (h : matchWinAt s = some g) :
    ∃ mid rest, mid ≠ [] ∧ '-' ∉ mid ∧ g ≠ [] ∧ (∀ c ∈ g, isVerChar c = true) ∧
      s = cursorSetupLit ++ (mid ++ '-' :: (g ++ '.' :: 'e' :: 'x' :: 'e' :: rest)) := by
  simp only [matchWinAt] at h
  by_cases hlit : s.take cursorSetupLit.length = cursorSetupLit
  case neg => rw [if_neg hlit] at h; exact absurd h (by simp)
  rw [if_pos hlit] at h
  by_cases hmid :
      ((s.drop cursorSetupLit.length).takeWhile (fun c => c != '-')).isEmpty = true
  · rw [if_pos hmid] at h
    exact absurd h (by simp)
  · rw [if_neg hmid] at h
    cases hdw : (s.drop cursorSetupLit.length).dropWhile (fun c => c != '-') with
    | nil => rw [hdw] at h; exact absurd h (by simp)
    | cons c r2 =>
      simp only [hdw] at h
      by_cases hc : c = '-'
      case neg => rw [if_neg hc] at h; exact absurd h (by simp)
      rw [if_pos hc] at h
      subst hc
      obtain ⟨hg, hver, rest, hr2⟩ := matchGroupExe_some h
      refine ⟨(s.drop cursorSetupLit.length).takeWhile (fun c => c != '-'), rest,
        ?_, ?_, hg, hver, ?_⟩
      · intro hnil
        rw [hnil] at hmid
        exact hmid rfl
      · intro hdash
        have := List.mem_takeWhile_imp hdash
        simp at this
      · conv_lhs => rw [← List.take_append_drop cursorSetupLit.length s]
        rw [hlit]
        congr 1
        conv_lhs =>
          rw [← List.takeWhile_append_dropWhile (fun c => c != '-')
            (s.drop cursorSetupLit.length)]
        rw [hdw, hr2]

theorem searchWin_shape :
    ∀ {s g : List Char}, searchWin s = some g → winShape s g := by
  intro s
  induction s with
  | nil => intro g h; simp [searchWin] at h
  | cons c rest ih =>
    intro g h
    rw [searchWin] at h
    cases hm : matchWinAt (c :: rest) with
    | some g1 =>
      rw [hm] at h
      injection h with hg
      subst hg
      obtain ⟨mid, r, hmid, hdash, hg, hver, hs⟩ := matchWinAt_some hm
      exact ⟨[], mid, r, hmid, hdash, hg, hver, by simpa using hs⟩
    | none =>
      rw [hm] at h
      obtain ⟨pre, mid, r, hmid, hdash, hg, hver, hs⟩ := ih h
      exact ⟨c :: pre, mid, r, hmid, hdash, hg, hver, by simp [hs]⟩

theorem matchTripleAt_some {s m : List Char} (h : matchTripleAt s = some m) :
    tripleShape m := by
  simp only [matchTripleAt] at h
  by_cases h1 : (s.takeWhile Char.isDigit).isEmpty = true
  · rw [if_pos h1] at h; exact absurd h (by simp)
  · rw [if_neg h1] at h
    cases hd1 : s.dropWhile Char.isDigit with
    | nil => rw [hd1] at h; exact absurd h (by simp)
    | cons c1 r2 =>
      simp only [hd1] at h
      by_cases hc1 : c1 = '.'
      case neg => rw [if_neg hc1] at h; exact absurd h (by simp)
      rw [if_pos hc1] at h
      by_cases h2 : (r2.takeWhile Char.isDigit).isEmpty = true
      · rw [if_pos h2] at h; exact absurd h (by simp)
      · rw [if_neg h2] at h
        cases hd2 : r2.dropWhile Char.isDigit with
        | nil => rw [hd2] at h; exact absurd h (by simp)
        | cons c2 r4 =>
          simp only [hd2] at h
          by_cases hc2 : c2 = '.'
          case neg => rw [if_neg hc2] at h; exact absurd h (by simp)
          rw [if_pos hc2] at h
          by_cases h3 : (r4.takeWhile Char.isDigit).isEmpty = true
          · rw [if_pos h3] at h; exact absurd h (by simp)
          · rw [if_neg h3] at h
            injection h with hm
            refine ⟨s.takeWhile Char.isDigit, r2.takeWhile Char.isDigit,
              r4.takeWhile Char.isDigit, ⟨?_, ?_⟩, ⟨?_, ?_⟩, ⟨?_, ?_⟩, ?_⟩
            · intro hnil; rw [hnil] at h1; exact h1 rfl
            · intro c hc; exact List.mem_takeWhile_imp hc
            · intro hnil; rw [hnil] at h2; exact h2 rfl
            · intro c hc; exact List.mem_takeWhile_imp hc
            · intro hnil; rw [hnil] at h3; exact h3 rfl
            · intro c hc; exact List.mem_takeWhile_imp hc
            · exact hm.symm

theorem searchTriple_leftmost :
    ∀ {s m : List Char}, searchTriple s = some m →
      ∃ i, matchTripleAt (s.drop i) = some m ∧
        ∀ j, j < i → matchTripleAt (s.drop j) = none := by
  intro s
  induction s with
  | nil => intro m h; simp [searchTriple] at h
  | cons c rest ih =>
    intro m h
    rw [searchTriple] at h
    cases hm : matchTripleAt (c :: rest) with
    | some m1 =>
      rw [hm] at h
      injection h with hm1
      subst hm1
      exact ⟨0, by simpa using hm, fun j hj => absurd hj (Nat.not_lt_zero j)⟩
    | none =>
      rw [hm] at h
      obtain ⟨i, hi, hlt⟩ := ih h
      refine ⟨i + 1, by simpa using hi, ?_⟩
      intro j hj
      cases j with
      | zero => simpa using hm
      | succ j1 =>
        rw [List.drop_succ_cons]
        exact hlt j1 (Nat.lt_of_succ_lt_succ hj)

theorem extract_version_win {url : String} {g : List Char}
    (h : searchWin url.data = some g) (hg : g ≠ []) :
    extract_version url = String.mk g := by
  simp only [extract_version, h]
  rw [if_neg (by simpa using hg)]

theorem extract_version_generic {url : String}
    (hw : searchWin url.data = none) :
    extract_version url = genericVersion url := by
  simp only [extract_version, hw]

/-! ### The claims -/

/-- C1 (counterexample): with `README.md` absent, a fresh history and a round
that fetched version 1.2.3, `update_readme` reports failure and the history
file has not received any entry — against the claim that on this path the
merged history has already been saved. -/
theorem C1_readme_missing_counterexample :
    (update_readme fetchTriple true "2026-10-12" "ts" fsNoReadme).1 = false ∧
      (read_version_history
        (update_readme fetchTriple true "2026-10-12" "ts" fsNoReadme).2).versions = [] :=
  ⟨by decide, by decide⟩

/-- C1 (amended): when `README.md` does not exist, `update_readme` returns
failure before the merge and the save — the whole file system, the history
file included, is left untouched. -/
theorem C1_readme_missing_reports_failure_without_save
    (fetched : String → Option String) (force : Bool) (d n : String) (fs : FS)
    (h : fs.readme = none) :
    update_readme fetched force d n fs = (false, fs) := by
  by_cases h0 : (collect fetched).2 = "0.0.0"
  · rw [update_readme, if_pos h0]
  · by_cases h1 : (findVerIdx (collect fetched).2
        (read_version_history fs).versions).isSome = true ∧ force = false
    · rw [update_readme, if_neg h0, if_pos h1]
    · rw [update_readme, if_neg h0, if_neg h1, h]

/-- C1 (witness): the amended theorem applied to a concrete state without a
README. -/
theorem C1_readme_missing_witness :
    update_readme fetchTriple true "2026-10-12" "ts" fsNoReadme =
      (false, fsNoReadme) :=
  C1_readme_missing_reports_failure_without_save fetchTriple true
    "2026-10-12" "ts" fsNoReadme rfl

/-- C2 (counterexample): at the moment the round-trip parse check runs, the
on-disk state has already been touched — the existing `version-history.json`
has been renamed away — against the claim that the check precedes any disk
mutation. -/
theorem C2_check_before_disk_counterexample :
    (save_stateAtCheck fsJ).histFile = none ∧
      fsJ.histFile = some (Json.str "old-doc") ∧
      save_stateAtCheck fsJ ≠ fsJ := by
  refine ⟨rfl, rfl, ?_⟩
  intro hcon
  have hfield := congrArg FS.histFile hcon
  simp [save_stateAtCheck, save_backupPhase, fsJ] at hfield

/-- C2 (amended): `save_version_history` performs the round-trip parse check
after renaming the existing file to `.backup` and before writing the new
content; when the check passes (it always does on the serializer's own
output), the new document lands at the original path and the previous document
survives only at the `.backup` path. -/
theorem C2_roundtrip_check_after_backup_rename (h : VersionHistory) (fs : FS)
    (j : Json) (hj : fs.histFile = some j) :
    (save_stateAtCheck fs).histFile = none ∧
      (save_stateAtCheck fs).backupFile = some j ∧
      (save_version_history h fs).histFile = some (json_dumps h) ∧
      (save_version_history h fs).backupFile = some j := by
  refine ⟨?_, ?_, ?_, ?_⟩ <;>
    simp [save_stateAtCheck, save_backupPhase, save_version_history,
      json_loads, hj]

/-- C2 (witness): the amended theorem applied to a concrete state holding a
history document. -/
theorem C2_roundtrip_check_witness :
    (save_stateAtCheck fsJ).histFile = none ∧
      (save_stateAtCheck fsJ).backupFile = some (Json.str "old-doc") ∧
      (save_version_history ⟨[]⟩ fsJ).histFile = some (json_dumps ⟨[]⟩) ∧
      (save_version_history ⟨[]⟩ fsJ).backupFile = some (Json.str "old-doc") :=
  C2_roundtrip_check_after_backup_rename ⟨[]⟩ fsJ (Json.str "old-doc") rfl

/-- C3: the merge normalization of `update_readme` (sort descending at line
268, then first-occurrence dedup at lines 270-285) coincides with the spec's
dedup-first-then-sort order, because the sort is stable; and for every entry
kept, it is the first entry of the pre-sort sequence carrying its version
string. -/
theorem C3_merge_equals_dedup_then_sort (l : List VersionHistoryEntry) :
    codeSortThenDedup l = specDedupThenSort l ∧
      ∀ e ∈ codeSortThenDedup l,
        l.find? (fun y => y.version == e.version) = some e := by
  constructor
  · rw [codeSortThenDedup, specDedupThenSort, dedupLoop_nil, dedupLoop_nil,
      dedupF_sortD]
  · intro e he
    rw [codeSortThenDedup, dedupLoop_nil, dedupF_sortD] at he
    exact dedupF_first (mem_sortD.mp he)

/-- C3 (witness): two entries sharing version 1.0.0 — the merge keeps the
insertion-order-first one. -/
theorem C3_merge_witness :
    codeSortThenDedup [entryDupA, entryDupB] =
        specDedupThenSort [entryDupA, entryDupB] ∧
      [entryDupA, entryDupB].find?
        (fun y => y.version == entryDupA.version) = some entryDupA :=
  ⟨(C3_merge_equals_dedup_then_sort [entryDupA, entryDupB]).1,
    (C3_merge_equals_dedup_then_sort [entryDupA, entryDupB]).2 entryDupA
      (by decide)⟩

/-- C4 (counterexample): `save_version_history` itself enforces no length cap —
saving a 101-entry history persists all 101 entries. -/
theorem C4_save_uncapped_counterexample :
    (read_version_history
      (save_version_history bigHistory fsFresh)).versions.length = 101 := by
  rw [read_save_versions]
  simp [bigHistory]

/-- C4 (amended): the 100-entry cap is enforced by `update_readme` before it
calls save, so every history persisted by a successful `update_readme` run has
at most 100 entries; `save_version_history` alone does not truncate. -/
theorem C4_cap_enforced_by_update_readme_not_save
    (fetched : String → Option String) (force : Bool) (d n : String) (fs : FS)
    (h : (update_readme fetched force d n fs).1 = true) :
    (read_version_history
      (update_readme fetched force d n fs).2).versions.length ≤ 100 := by
  by_cases h0 : (collect fetched).2 = "0.0.0"
  · rw [update_readme, if_pos h0] at h
    exact absurd h (by simp)
  · by_cases h1 : (findVerIdx (collect fetched).2
        (read_version_history fs).versions).isSome = true ∧ force = false
    · rw [update_readme, if_neg h0, if_pos h1] at h
      exact absurd h (by simp)
    · cases hrm : fs.readme with
      | none =>
        rw [update_readme, if_neg h0, if_neg h1, hrm] at h
        exact absurd h (by simp)
      | some rc =>
        simp only [update_readme_success fetched force d n fs rc h0 h1 hrm]
        rw [read_version_history_set_readme, read_save_versions]
        exact mergedVersions_length_le fetched d fs

/-- C4 (witness): a concrete successful run stays within the cap. -/
theorem C4_cap_witness :
    (read_version_history
      (update_readme fetchTriple true "2026-10-12" "ts" fsFresh).2).versions.length
        ≤ 100 :=
  C4_cap_enforced_by_update_readme_not_save fetchTriple true "2026-10-12" "ts"
    fsFresh (by decide)

/-- C5: loading the file produced by saving a history yields exactly the saved
versions sequence — in particular the same set of version entries. -/
theorem C5_load_save_roundtrip (h : VersionHistory) (fs : FS) :
    (read_version_history (save_version_history h fs)).versions = h.versions :=
  read_save_versions h fs

/-- C6: when the fetched latest version already has an entry in the persisted
history and no forced update is requested, `update_readme` reports no update
and leaves the whole file system — history file and README — unchanged. -/
theorem C6_existing_version_no_update (fetched : String → Option String)
    (d n : String) (fs : FS)
    (hex : ∃ e ∈ (read_version_history fs).versions,
        e.version = (collect fetched).2) :
    update_readme fetched false d n fs = (false, fs) := by
  by_cases h0 : (collect fetched).2 = "0.0.0"
  · rw [update_readme, if_pos h0]
  · rw [update_readme, if_neg h0,
      if_pos ⟨(findVerIdx_isSome_iff _ _).mpr hex, rfl⟩]

/-- C6 (witness): history already records 1.2.3, the round fetches 1.2.3
again without force — no-op. -/
theorem C6_existing_version_witness :
    update_readme fetchTriple false "2026-10-12" "ts" fsOld = (false, fsOld) :=
  C6_existing_version_no_update fetchTriple "2026-10-12" "ts" fsOld (by decide)

/-- C7: when no platform yields a usable version — the computed latest version
is still the baseline 0.0.0 — the update reports failure and neither the
history file nor the README is mutated. -/
theorem C7_no_usable_version_no_mutation (fetched : String → Option String)
    (force : Bool) (d n : String) (fs : FS)
    (h : (collect fetched).2 = "0.0.0") :
    update_readme fetched force d n fs = (false, fs) := by
  rw [update_readme, if_pos h]

/-- C7 (witness): a round with no fetch results at all. -/
theorem C7_no_usable_version_witness :
    update_readme fetchNone true "2026-10-12" "ts" fsFresh = (false, fsFresh) :=
  C7_no_usable_version_no_mutation fetchNone true "2026-10-12" "ts" fsFresh
    (by decide)

/-- C8: `extract_version` applies the Windows installer pattern first and
returns its captured group; otherwise it returns the leftmost occurrence of
the generic `major.minor.patch` pattern; and when neither matches it returns
`Unknown`. -/
theorem C8_extract_version_pattern_priority (url : String) :
    (∀ g, searchWin url.data = some g →
        extract_version url = String.mk g ∧ winShape url.data g) ∧
      (searchWin url.data = none → ∀ m, searchTriple url.data = some m →
        extract_version url = String.mk m ∧ tripleShape m ∧
          ∃ i, matchTripleAt (url.data.drop i) = some m ∧
            ∀ j, j < i → matchTripleAt (url.data.drop j) = none) ∧
      (searchWin url.data = none → searchTriple url.data = none →
        extract_version url = "Unknown") := by
  refine ⟨?_, ?_, ?_⟩
  · intro g hg
    obtain ⟨pre, mid, r, _, _, hgn, _, _⟩ := searchWin_shape hg
    exact ⟨extract_version_win hg hgn, searchWin_shape hg⟩
  · intro hw m hm
    obtain ⟨i, hi, hlt⟩ := searchTriple_leftmost hm
    refine ⟨?_, matchTripleAt_some hi, ⟨i, hi, hlt⟩⟩
    rw [extract_version_generic hw]
    simp only [genericVersion, hm]
  · intro hw ht
    rw [extract_version_generic hw]
    simp only [genericVersion, ht]

/-- C8 (witness): the Windows installer URL for 1.2.3. -/
theorem C8_extract_version_witness :
    extract_version urlTriple = String.mk ['1', '.', '2', '.', '3'] ∧
      winShape urlTriple.data ['1', '.', '2', '.', '3'] :=
  (C8_extract_version_pattern_priority urlTriple).1 ['1', '.', '2', '.', '3']
    (by decide)

/-- C9 (counterexample): the round fetching
`CursorUserSetup-x64-1.2.exe` stores a history entry whose version is `1.2`,
which is not a dotted numeric triple. -/
theorem C9_not_triple_counterexample :
    (read_version_history
      (update_readme fetchTwo true "2026-10-12" "ts" fsFresh).2).versions =
        [⟨"1.2", "2026-10-12", [("win32-x64", urlTwo)]⟩] ∧
      isDottedTriple "1.2" = false :=
  ⟨by decide, by decide⟩

/-- C9 (amended): a version recorded from a fetched URL (any non-`Unknown`
result of `extract_version`) is a nonempty string over digits and dots — the
Windows pattern's `[0-9.]+` group need not be a full triple. -/
theorem C9_version_digits_and_dots (url : String)
    (h : extract_version url ≠ "Unknown") :
    (extract_version url).data ≠ [] ∧
      ∀ c ∈ (extract_version url).data, isVerChar c = true := by
  cases hw : searchWin url.data with
  | some g =>
    obtain ⟨pre, mid, r, _, _, hg, hver, _⟩ := searchWin_shape hw
    rw [extract_version_win hw hg]
    exact ⟨by simpa using hg, by simpa using hver⟩
  | none =>
    cases ht : searchTriple url.data with
    | none =>
      exfalso
      apply h
      rw [extract_version_generic hw]
      simp only [genericVersion, ht]
    | some m =>
      obtain ⟨i, hi, _⟩ := searchTriple_leftmost ht
      obtain ⟨d1, d2, d3, hd1, hd2, hd3, hm⟩ := matchTripleAt_some hi
      rw [extract_version_generic hw]
      simp only [genericVersion, ht]
      subst hm
      constructor
      · intro hnil
        have hz : d1 ++ ('.' :: d2) ++ ('.' :: d3) = [] := hnil
        simp at hz
      · intro c hc
        have hc1 : c ∈ d1 ++ ('.' :: d2) ++ ('.' :: d3) := hc
        rcases List.mem_append.mp hc1 with h1 | h2
        · rcases List.mem_append.mp h1 with h3 | h4
          · simp [isVerChar, hd1.2 c h3]
          · rcases List.mem_cons.mp h4 with rfl | h5
            · decide
            · simp [isVerChar, hd2.2 c h5]
        · rcases List.mem_cons.mp h2 with rfl | h6
          · decide
          · simp [isVerChar, hd3.2 c h6]

/-- C9 (witness): the amended theorem at the `1.2` URL. -/
theorem C9_version_digits_witness :
    (extract_version urlTwo).data ≠ [] ∧
      ∀ c ∈ (extract_version urlTwo).data, isVerChar c = true :=
  C9_version_digits_and_dots urlTwo (by decide)

/-- C10 (counterexample): under the deployed entry point (force update), a run
that finds usable version 1.2.3 but no `README.md` does not replace the
existing 1.2.3 entry — the old entry with its 2020 date survives unchanged. -/
theorem C10_readme_missing_counterexample :
    (main_update fetchTriple "2026-10-12" "ts" fsOldNoReadme).1 = false ∧
      (read_version_history
        (main_update fetchTriple "2026-10-12" "ts" fsOldNoReadme).2).versions =
          [entryOld] ∧
      entryOld.date ≠ "2026-10-12" :=
  ⟨by decide, by decide, by decide⟩

/-- C10 (amended): `main` always forces the update, so the no-update early
exit is never taken; on every run that finds a usable version, already has an
entry for it, has a README to update and a stored history within the cap, the
saved history contains the replacement entry with this round's URLs and
today's date. -/
theorem C10_force_replaces_entry (fetched : String → Option String)
    (d n : String) (fs : FS) (rc : String)
    (hrm : fs.readme = some rc)
    (h0 : (collect fetched).2 ≠ "0.0.0")
    (hex : ∃ e ∈ (read_version_history fs).versions,
        e.version = (collect fetched).2)
    (hlen : (read_version_history fs).versions.length ≤ 100) :
    (main_update fetched d n fs).1 = true ∧
      newEntryOf fetched d ∈
        (read_version_history (main_update fetched d n fs).2).versions := by
  have h1 : ¬ ((findVerIdx (collect fetched).2
      (read_version_history fs).versions).isSome = true ∧ true = false) :=
    fun hcon => Bool.noConfusion hcon.2
  simp only [main_update,
    update_readme_success fetched true d n fs rc h0 h1 hrm]
  refine ⟨by trivial, ?_⟩
  rw [read_version_history_set_readme, read_save_versions]
  exact newEntry_mem_mergedVersions fetched d fs hex hlen

/-- C10 (witness): the amended theorem at the concrete state recording 1.2.3
with an old date. -/
theorem C10_force_replaces_witness :
    (main_update fetchTriple "2026-10-12" "ts" fsOld).1 = true ∧
      newEntryOf fetchTriple "2026-10-12" ∈
        (read_version_history
          (main_update fetchTriple "2026-10-12" "ts" fsOld).2).versions :=
  C10_force_replaces_entry fetchTriple "2026-10-12" "ts" fsOld "README" rfl
    (by decide) (by decide) (by decide)

end CursorLinks
